import Mathlib

/-!
Verification of the safecipher repository (src/crypto.c, src/cli.c).

Symbols (C `char` values) are modelled as `Int` restricted by hypotheses to
the signed-char range where the `(char)` cast matters.  C's truncating `%`
on `int`/`long` is `Int.tmod`; the `(char)` cast is `chr8` (two's-complement
wrap to [-128, 127]); `int` negation, which wraps at INT_MIN in practice, is
`wrap32` composed with negation.  Strings are `List Int` (no NUL terminator;
the terminator writes of the C code fall outside the modelled buffer).
-/

namespace Safecipher

/-- Two's-complement wrap of an integer to the signed 8-bit range,
modelling the `(char)` cast in `caesar_encrypt`. -/
def chr8 (x : Int) : Int := (x + 128) % 256 - 128

/-- Two's-complement wrap to the signed 32-bit range, modelling what `int`
arithmetic does on overflow (relevant only for `-key` at INT_MIN). -/
def wrap32 (x : Int) : Int := (x + 2147483648) % 4294967296 - 2147483648

/-- The key-normalization expression `(key % range_size + range_size) % range_size`
of crypto.c (lines 19 and 160), with C's truncating `%`. -/
def normKey (key rs : Int) : Int := ((Int.tmod key rs) + rs).tmod rs

/-- The per-character body of the loop of `caesar_encrypt` (crypto.c lines 22-26):
an in-range symbol becomes `(char)(range_low + abs((c - range_low + k) % range_size))`
for an already-normalized key `k`; anything else is copied unchanged. -/
def caesarChar (rl rh k c : Int) : Int :=
  if rl ≤ c ∧ c ≤ rh then chr8 (rl + |(c - rl + k).tmod (rh - rl + 1)|) else c

/-- crypto.c `caesar_encrypt`: normalize the key modulo the range size, then map
the per-character transform over the message. -/
def caesar_encrypt (rl rh key : Int) (pt : List Int) : List Int :=
  pt.map (caesarChar rl rh (normKey key (rh - rl + 1)))

/-- crypto.c `caesar_decrypt`: delegate to `caesar_encrypt` with `-key`; the C
negation of an `int` wraps, hence `wrap32`. -/
def caesar_decrypt (rl rh key : Int) (ct : List Int) : List Int :=
  caesar_encrypt rl rh (wrap32 (-key)) ct

/-- The common loop of crypto.c `vigenere_encrypt` (lines 44-54) and
`vigenere_decrypt` (lines 65-74), which differ only in calling
`caesar_encrypt` respectively `caesar_decrypt` on the remaining suffix:
`dec` selects the variant.  `buf` is the output buffer; at an in-range
position `i` the code invokes the Caesar transform on the whole remaining
suffix `pt.drop i`, overwriting `buf` from position `i` on, and then
executes `(index + 1) % key_length` — a division by zero when the key is
empty, modelled as `none` (the C code performs the suffix write into the
local buffer first and then crashes, so the returned value is the same). -/
def vigenere_go (rl rh : Int) (dec : Bool) (key pt : List Int) (i idx : Nat)
    (buf : List Int) : Option (List Int) :=
  if h : i < pt.length then
    if rl ≤ pt.get ⟨i, h⟩ ∧ pt.get ⟨i, h⟩ ≤ rh then
      if key.length = 0 then none
      else
        vigenere_go rl rh dec key pt (i + 1) ((idx + 1) % key.length)
          (buf.take i ++
            (if dec then caesar_decrypt rl rh (key.getD idx 0 - rl) (pt.drop i)
             else caesar_encrypt rl rh (key.getD idx 0 - rl) (pt.drop i)))
    else vigenere_go rl rh dec key pt (i + 1) idx (buf.set i (pt.get ⟨i, h⟩))
  else some buf
termination_by pt.length - i
decreasing_by all_goals omega

/-- crypto.c `vigenere_encrypt` (lines 38-56). -/
def vigenere_encrypt (rl rh : Int) (key pt : List Int) : Option (List Int) :=
  vigenere_go rl rh false key pt 0 0 (List.replicate pt.length 0)

/-- crypto.c `vigenere_decrypt` (lines 59-76). -/
def vigenere_decrypt (rl rh : Int) (key ct : List Int) : Option (List Int) :=
  vigenere_go rl rh true key ct 0 0 (List.replicate ct.length 0)

/-- The per-character polyalphabetic algorithm as the spec words it
(spec.md section 4.2): a cyclic index starts at 0; an in-range symbol is
transformed by the Shift Transform applied to that single symbol with
offset `keyword[k_idx] - range_low`, after which the index advances modulo
the keyword length; an out-of-range symbol is copied and the index does
not advance. -/
def polySpec (rl rh : Int) (dec : Bool) (key : List Int) :
    List Int → Nat → List Int
  | [], _ => []
  | c :: cs, idx =>
    if rl ≤ c ∧ c ≤ rh then
      (if dec then caesar_decrypt rl rh (key.getD idx 0 - rl) [c]
       else caesar_encrypt rl rh (key.getD idx 0 - rl) [c]).headD 0
        :: polySpec rl rh dec key cs ((idx + 1) % key.length)
    else c :: polySpec rl rh dec key cs idx

/-- The four operation tokens the CLI recognizes (cli.c `cli`); an
unrecognized operation string is modelled as `none` at the call site. -/
inductive Op where
  | vigenereEncrypt : Op
  | vigenereDecrypt : Op
  | caesarEncrypt : Op
  | caesarDecrypt : Op
deriving DecidableEq

/-- Observable outcome of a CLI invocation: `ok out` is exit status 0 with
`out` printed, `err` is exit status 1 after a diagnostic on stderr, and
`crash` marks reaching the division by zero in the Vigenère loop. -/
inductive CliOut where
  | ok : List Int → CliOut
  | err : CliOut
  | crash : CliOut
deriving DecidableEq

/-- C `isspace` on a byte in the default locale: space or one of
HT, LF, VT, FF, CR.  A negative `char` cast to `unsigned char` lands in
[128, 255], none of which is a space, so testing the signed value directly
is equivalent. -/
def isspaceC (c : Int) : Bool := decide (c = 32 ∨ (9 ≤ c ∧ c ≤ 13))

/-- C `isdigit` for the decimal digits consumed by `strtol`. -/
def isDigitC (c : Int) : Bool := decide (48 ≤ c ∧ c ≤ 57)

/-- cli.c `contains_whitespace`. -/
def contains_whitespace (s : List Int) : Bool := s.any isspaceC

/-- cli.c `validate_key_characters`: every character must lie in 'A'..'Z'
(65..90).  Note the empty string passes this check. -/
def validate_key_characters (s : List Int) : Bool :=
  s.all (fun c => decide (65 ≤ c ∧ c ≤ 90))

/-- Digit-consuming loop of `strtol`: accumulate the decimal magnitude and
return it together with the unconsumed remainder. -/
def go10 : Int → List Int → Int × List Int
  | acc, [] => (acc, [])
  | acc, c :: cs =>
    if isDigitC c then go10 (acc * 10 + (c - 48)) cs else (acc, c :: cs)

/-- `strtol` clamps an out-of-range value to LONG_MIN / LONG_MAX. -/
def clampLong (x : Int) : Int :=
  if x < -9223372036854775808 then -9223372036854775808
  else if 9223372036854775807 < x then 9223372036854775807
  else x

/-- `strtol` after sign handling: with no leading digit there is no
conversion, so the end pointer is reset to the original string. -/
def strtolDigits (orig : List Int) (sign : Int) (s2 : List Int) : Int × List Int :=
  match s2 with
  | [] => (0, orig)
  | c :: t =>
    if isDigitC c then
      (clampLong (sign * (go10 0 (c :: t)).1), (go10 0 (c :: t)).2)
    else (0, orig)

/-- `strtol` after whitespace skipping: an optional single sign character. -/
def strtolBody (orig s1 : List Int) : Int × List Int :=
  match s1 with
  | [] => (0, orig)
  | c :: t =>
    if c = 45 then strtolDigits orig (-1) t
    else if c = 43 then strtolDigits orig 1 t
    else strtolDigits orig 1 (c :: t)

/-- Model of C `strtol(key_str, &endptr, 10)` on a NUL-free byte string:
returns the parsed long value and the unconsumed suffix (`endptr`).
Leading whitespace is skipped, then an optional sign, then digits; with no
digits the value is 0 and `endptr` is the original string. -/
def strtol10 (s : List Int) : Int × List Int :=
  strtolBody s (s.dropWhile isspaceC)

/-- cli.c `handle_vigenere`: reject a key with out-of-range characters,
otherwise run the requested Vigenère transform and print the result. -/
def handle_vigenere (op : Op) (key msg : List Int) : CliOut :=
  if validate_key_characters key then
    match (if op = Op.vigenereEncrypt then vigenere_encrypt 65 90 key msg
           else vigenere_decrypt 65 90 key msg) with
    | some out => CliOut.ok out
    | none => CliOut.crash
  else CliOut.err

/-- cli.c `handle_caesar`: parse the key with `strtol`, reject trailing
characters, any whitespace, or a value outside `int` range; otherwise wrap
the key into [0, 26) exactly as line 160 does and run the transform. -/
def handle_caesar (op : Op) (key_str msg : List Int) : CliOut :=
  if (strtol10 key_str).2 ≠ [] ∨ contains_whitespace key_str = true ∨
      (strtol10 key_str).1 < -2147483648 ∨ 2147483647 < (strtol10 key_str).1 then
    CliOut.err
  else
    CliOut.ok
      (if op = Op.caesarEncrypt then
        caesar_encrypt 65 90 (normKey (strtol10 key_str).1 26) msg
       else caesar_decrypt 65 90 (normKey (strtol10 key_str).1 26) msg)

/-- cli.c `cli` for a well-formed argument vector (`argc = 4`): empty key or
message and over-long messages are rejected before dispatch; an
unrecognized operation (`none`) is rejected after those checks, as in the
strcmp chain. -/
def cli (op : Option Op) (key msg : List Int) : CliOut :=
  if key = [] ∨ msg = [] then CliOut.err
  else if 1024 ≤ msg.length then CliOut.err
  else
    match op with
    | some o =>
      if o = Op.vigenereEncrypt ∨ o = Op.vigenereDecrypt then
        handle_vigenere o key msg
      else handle_caesar o key msg
    | none => CliOut.err

/-- A valid decimal integer token as the spec words it: an optional sign
followed by at least one digit and nothing else. -/
def validIntToken (s : List Int) : Bool :=
  if s.headD 0 = 45 ∨ s.headD 0 = 43 then !s.tail.isEmpty && s.tail.all isDigitC
  else !s.isEmpty && s.all isDigitC

/-- Decimal value of a digit string. -/
def digitsVal (s : List Int) : Int := s.foldl (fun a c => a * 10 + (c - 48)) 0

/-- Mathematical (unclamped) value of a valid decimal integer token. -/
def specTokenVal (s : List Int) : Int :=
  if s.headD 0 = 45 then -(digitsVal s.tail)
  else if s.headD 0 = 43 then digitsVal s.tail
  else digitsVal s

lemma chr8_eq_self {x : Int} (h1 : -128 ≤ x) (h2 : x ≤ 127) : chr8 x = x := by
  unfold chr8
  have : (x + 128) % 256 = x + 128 := Int.emod_eq_of_lt (by omega) (by omega)
  omega

lemma wrap32_eq_self {x : Int} (h1 : -2147483648 ≤ x) (h2 : x ≤ 2147483647) :
    wrap32 x = x := by
  unfold wrap32
  have : (x + 2147483648) % 4294967296 = x + 2147483648 :=
    Int.emod_eq_of_lt (by omega) (by omega)
  omega

lemma tmod_neg_arg (k rs : Int) : Int.tmod (-k) rs = -(Int.tmod k rs) := by
  rw [Int.tmod_def, Int.tmod_def, Int.neg_tdiv]
  ring

lemma tmod_lower_bound (k : Int) {rs : Int} (h : 0 < rs) : -rs < Int.tmod k rs := by
  have h1 : Int.tmod (-k) rs < rs := Int.tmod_lt_of_pos _ h
  rw [tmod_neg_arg] at h1
  omega

/-- The C normalization `(k % rs + rs) % rs` with truncating `%` agrees with
Lean's Euclidean (non-negative) `%`. -/
lemma normKey_eq_emod (k : Int) {rs : Int} (h : 0 < rs) : normKey k rs = k % rs := by
  have hub : Int.tmod k rs < rs := Int.tmod_lt_of_pos _ h
  have hlb : -rs < Int.tmod k rs := tmod_lower_bound k h
  unfold normKey
  rw [Int.tmod_eq_emod (by omega) (le_of_lt h), Int.add_emod_self, Int.tmod_def,
    show k - rs * k.tdiv rs = k + -(k.tdiv rs) * rs from by ring,
    Int.add_mul_emod_self]

lemma normKey_nonneg (k : Int) {rs : Int} (h : 0 < rs) : 0 ≤ normKey k rs := by
  rw [normKey_eq_emod k h]
  exact Int.emod_nonneg k (by omega)

lemma normKey_lt (k : Int) {rs : Int} (h : 0 < rs) : normKey k rs < rs := by
  rw [normKey_eq_emod k h]
  exact Int.emod_lt_of_pos k h

lemma caesarChar_out {rl rh k c : Int} (h : ¬(rl ≤ c ∧ c ≤ rh)) :
    caesarChar rl rh k c = c := by
  unfold caesarChar
  rw [if_neg h]

/-- On an in-range symbol with an already-normalized key, the per-character
transform is plain modular shifting: the `abs` and the `(char)` cast are no-ops. -/
lemma caesarChar_in {rl rh k c : Int} (hlo : -128 ≤ rl) (hhi : rh ≤ 127)
    (hc : rl ≤ c ∧ c ≤ rh) (hk0 : 0 ≤ k) (hk1 : k < rh - rl + 1) :
    caesarChar rl rh k c = rl + (c - rl + k) % (rh - rl + 1) := by
  have hrs : (0 : Int) < rh - rl + 1 := by omega
  have harg : (0 : Int) ≤ c - rl + k := by omega
  unfold caesarChar
  rw [if_pos hc, Int.tmod_eq_emod harg (le_of_lt hrs)]
  have hnn : (0 : Int) ≤ (c - rl + k) % (rh - rl + 1) := Int.emod_nonneg _ (by omega)
  have hlt : (c - rl + k) % (rh - rl + 1) < rh - rl + 1 := Int.emod_lt_of_pos _ hrs
  rw [abs_of_nonneg hnn, chr8_eq_self (by omega) (by omega)]

lemma caesarChar_mem {rl rh k c : Int} (hlo : -128 ≤ rl) (hhi : rh ≤ 127)
    (hr : rl < rh) (hc : rl ≤ c ∧ c ≤ rh) (hk0 : 0 ≤ k) (hk1 : k < rh - rl + 1) :
    rl ≤ caesarChar rl rh k c ∧ caesarChar rl rh k c ≤ rh := by
  rw [caesarChar_in hlo hhi hc hk0 hk1]
  have hrs : (0 : Int) < rh - rl + 1 := by omega
  have hnn : (0 : Int) ≤ (c - rl + k) % (rh - rl + 1) := Int.emod_nonneg _ (by omega)
  have hlt : (c - rl + k) % (rh - rl + 1) < rh - rl + 1 := Int.emod_lt_of_pos _ hrs
  omega

/-- Two normalized shifts whose sum is divisible by the range size cancel on
every in-range symbol. -/
lemma caesarChar_inv {rl rh k1 k2 c : Int} (hlo : -128 ≤ rl) (hhi : rh ≤ 127)
    (hr : rl < rh) (hc : rl ≤ c ∧ c ≤ rh)
    (h10 : 0 ≤ k1) (h11 : k1 < rh - rl + 1) (h20 : 0 ≤ k2) (h21 : k2 < rh - rl + 1)
    (hsum : (k1 + k2) % (rh - rl + 1) = 0) :
    caesarChar rl rh k2 (caesarChar rl rh k1 c) = c := by
  have hrs : (0 : Int) < rh - rl + 1 := by omega
  have hmem := caesarChar_mem hlo hhi hr hc h10 h11
  rw [caesarChar_in hlo hhi hmem h20 h21, caesarChar_in hlo hhi hc h10 h11]
  have h1 : rl + (c - rl + k1) % (rh - rl + 1) - rl + k2
      = (c - rl + k1) % (rh - rl + 1) + k2 := by ring
  rw [h1, Int.emod_add_emod,
    show c - rl + k1 + k2 = (c - rl) + (k1 + k2) from by ring,
    Int.add_emod (c - rl) (k1 + k2), hsum, add_zero,
    Int.emod_emod_of_dvd _ dvd_rfl,
    Int.emod_eq_of_lt (by omega) (by omega)]
  omega

lemma take_succ_set : ∀ (l : List Int) (i : Nat) (a : Int), i < l.length →
    (l.set i a).take (i + 1) = l.take i ++ [a] := by
  intro l
  induction l with
  | nil => intro i a h; simp at h
  | cons b t ih =>
    intro i a h
    cases i with
    | zero => simp
    | succ j =>
      simp only [List.set_cons_succ, List.take_succ_cons, List.take, List.cons_append]
      rw [ih j a (by simpa using h)]

/-- Bridge between the buffer-mutating loop of the C code and the
per-character algorithm: the suffix written by the Caesar call at an
in-range position is overwritten at every later position by that
position's own iteration, so only its first character survives. -/
lemma vigenere_go_eq_polySpec (rl rh : Int) (dec : Bool) (key pt : List Int)
    (hk : key ≠ []) :
    ∀ (n i idx : Nat) (buf : List Int), pt.length - i = n →
      buf.length = pt.length →
      vigenere_go rl rh dec key pt i idx buf
        = some (buf.take i ++ polySpec rl rh dec key (pt.drop i) idx) := by
  intro n
  induction n with
  | zero =>
    intro i idx buf hn hb
    have hi : pt.length ≤ i := by omega
    rw [vigenere_go, dif_neg (by omega)]
    rw [List.drop_eq_nil_of_le hi, List.take_of_length_le (by omega)]
    simp [polySpec]
  | succ n ih =>
    intro i idx buf hn hb
    have hi : i < pt.length := by omega
    have hkl : key.length ≠ 0 := fun h0 => hk (List.length_eq_zero.mp h0)
    have hdrop : pt.drop i = pt[i] :: pt.drop (i + 1) :=
      List.drop_eq_getElem_cons hi
    have htklen : (buf.take i).length = i := by
      rw [List.length_take]; omega
    rw [vigenere_go, dif_pos hi]
    simp only [List.get_eq_getElem]
    by_cases hc : rl ≤ pt[i] ∧ pt[i] ≤ rh
    · rw [if_pos hc, if_neg hkl]
      cases dec with
      | false =>
        simp only [Bool.false_eq_true, if_false]
        rw [ih (i + 1) ((idx + 1) % key.length)
          (buf.take i ++ caesar_encrypt rl rh (key.getD idx 0 - rl) (pt.drop i))
          (by omega)
          (by simp only [List.length_append, htklen, caesar_encrypt,
                List.length_map, List.length_drop]; omega)]
        rw [hdrop]
        simp only [caesar_encrypt, List.map_cons]
        rw [show buf.take i ++
              (caesarChar rl rh (normKey (key.getD idx 0 - rl) (rh - rl + 1)) pt[i]
                :: (pt.drop (i + 1)).map
                    (caesarChar rl rh (normKey (key.getD idx 0 - rl) (rh - rl + 1))))
            = (buf.take i ++
                [caesarChar rl rh (normKey (key.getD idx 0 - rl) (rh - rl + 1)) pt[i]]) ++
                (pt.drop (i + 1)).map
                  (caesarChar rl rh (normKey (key.getD idx 0 - rl) (rh - rl + 1)))
            from by simp]
        rw [List.take_left' (by simp [htklen])]
        simp [polySpec, hc, caesar_encrypt, List.append_assoc]
      | true =>
        simp only [if_true]
        rw [ih (i + 1) ((idx + 1) % key.length)
          (buf.take i ++ caesar_decrypt rl rh (key.getD idx 0 - rl) (pt.drop i))
          (by omega)
          (by simp only [List.length_append, htklen, caesar_decrypt, caesar_encrypt,
                List.length_map, List.length_drop]; omega)]
        rw [hdrop]
        simp only [caesar_decrypt, caesar_encrypt, List.map_cons]
        rw [show buf.take i ++
              (caesarChar rl rh
                  (normKey (wrap32 (-(key.getD idx 0 - rl))) (rh - rl + 1)) pt[i]
                :: (pt.drop (i + 1)).map
                    (caesarChar rl rh
                      (normKey (wrap32 (-(key.getD idx 0 - rl))) (rh - rl + 1))))
            = (buf.take i ++
                [caesarChar rl rh
                  (normKey (wrap32 (-(key.getD idx 0 - rl))) (rh - rl + 1)) pt[i]]) ++
                (pt.drop (i + 1)).map
                  (caesarChar rl rh
                    (normKey (wrap32 (-(key.getD idx 0 - rl))) (rh - rl + 1)))
            from by simp]
        rw [List.take_left' (by simp [htklen])]
        simp [polySpec, hc, caesar_decrypt, caesar_encrypt, List.append_assoc]
    · rw [if_neg hc]
      rw [ih (i + 1) idx (buf.set i pt[i]) (by omega) (by simp [hb])]
      rw [take_succ_set buf i _ (by omega), hdrop]
      simp [polySpec, hc, List.append_assoc]

lemma vigenere_encrypt_eq_polySpec (rl rh : Int) (key pt : List Int) (hk : key ≠ []) :
    vigenere_encrypt rl rh key pt = some (polySpec rl rh false key pt 0) := by
  unfold vigenere_encrypt
  rw [vigenere_go_eq_polySpec rl rh false key pt hk (pt.length - 0) 0 0
    (List.replicate pt.length 0) rfl (by simp)]
  simp

lemma vigenere_decrypt_eq_polySpec (rl rh : Int) (key ct : List Int) (hk : key ≠ []) :
    vigenere_decrypt rl rh key ct = some (polySpec rl rh true key ct 0) := by
  unfold vigenere_decrypt
  rw [vigenere_go_eq_polySpec rl rh true key ct hk (ct.length - 0) 0 0
    (List.replicate ct.length 0) rfl (by simp)]
  simp

lemma getD_map_of_lt (f : Int → Int) (l : List Int) (i : Nat) (h : i < l.length) :
    (l.map f).getD i 0 = f (l.getD i 0) := by
  simp [List.getD_eq_getElem?_getD, List.getElem?_map, List.getElem?_eq_getElem h]

lemma polySpec_length (rl rh : Int) (dec : Bool) (key : List Int) :
    ∀ (m : List Int) (idx : Nat),
      (polySpec rl rh dec key m idx).length = m.length := by
  intro m
  induction m with
  | nil => intro idx; simp [polySpec]
  | cons c cs ih =>
    intro idx
    by_cases hc : rl ≤ c ∧ c ≤ rh <;> simp [polySpec, hc, ih]

/-- Out-of-range symbols pass through the per-character algorithm unchanged
at their own position. -/
lemma polySpec_getD_out (rl rh : Int) (dec : Bool) (key : List Int) :
    ∀ (m : List Int) (idx i : Nat), i < m.length →
      ¬(rl ≤ m.getD i 0 ∧ m.getD i 0 ≤ rh) →
      (polySpec rl rh dec key m idx).getD i 0 = m.getD i 0 := by
  intro m
  induction m with
  | nil => intro idx i hi; simp at hi
  | cons c cs ih =>
    intro idx i hi hout
    cases i with
    | zero =>
      simp only [List.getD_cons_zero] at hout ⊢
      rw [show polySpec rl rh dec key (c :: cs) idx
          = c :: polySpec rl rh dec key cs idx from by simp [polySpec, hout]]
      simp
    | succ j =>
      simp only [List.getD_cons_succ] at hout ⊢
      by_cases hc : rl ≤ c ∧ c ≤ rh
      · simp only [polySpec, if_pos hc, List.getD_cons_succ]
        exact ih _ j (by simpa using hi) hout
      · simp only [polySpec, if_neg hc, List.getD_cons_succ]
        exact ih _ j (by simpa using hi) hout

/-- In-range symbols stay in range through the per-character algorithm. -/
lemma polySpec_getD_mem (rl rh : Int) (dec : Bool) (key : List Int)
    (hr : rl < rh) (hlo : -128 ≤ rl) (hhi : rh ≤ 127) :
    ∀ (m : List Int) (idx i : Nat), i < m.length →
      rl ≤ m.getD i 0 ∧ m.getD i 0 ≤ rh →
      rl ≤ (polySpec rl rh dec key m idx).getD i 0 ∧
        (polySpec rl rh dec key m idx).getD i 0 ≤ rh := by
  intro m
  induction m with
  | nil => intro idx i hi; simp at hi
  | cons c cs ih =>
    intro idx i hi hin
    have hrs : (0 : Int) < rh - rl + 1 := by omega
    cases i with
    | zero =>
      simp only [List.getD_cons_zero] at hin
      simp only [polySpec, if_pos hin]
      cases dec with
      | false =>
        simp only [Bool.false_eq_true, if_false, caesar_encrypt, List.map_cons,
          List.map_nil, List.headD_cons, List.getD_cons_zero]
        exact caesarChar_mem hlo hhi hr hin (normKey_nonneg _ hrs) (normKey_lt _ hrs)
      | true =>
        simp only [if_true, caesar_decrypt, caesar_encrypt, List.map_cons,
          List.map_nil, List.headD_cons, List.getD_cons_zero]
        exact caesarChar_mem hlo hhi hr hin (normKey_nonneg _ hrs) (normKey_lt _ hrs)
    | succ j =>
      simp only [List.getD_cons_succ] at hin
      by_cases hc : rl ≤ c ∧ c ≤ rh
      · simp only [polySpec, if_pos hc, List.getD_cons_succ]
        exact ih _ j (by simpa using hi) hin
      · simp only [polySpec, if_neg hc, List.getD_cons_succ]
        exact ih _ j (by simpa using hi) hin

/-- Per-character round trip: decrypting with the same keyword position
undoes encrypting, for every starting index below the keyword length. -/
lemma polySpec_roundtrip (rl rh : Int) (key : List Int)
    (hr : rl < rh) (hlo : -128 ≤ rl) (hhi : rh ≤ 127)
    (hkey : ∀ c ∈ key, rl ≤ c ∧ c ≤ rh) :
    ∀ (m : List Int) (idx : Nat), idx < key.length →
      polySpec rl rh true key (polySpec rl rh false key m idx) idx = m := by
  intro m
  induction m with
  | nil => intro idx _; simp [polySpec]
  | cons c cs ih =>
    intro idx hidx
    have hrs : (0 : Int) < rh - rl + 1 := by omega
    have hkl : 0 < key.length := by omega
    have hgd : key.getD idx 0 = key.get ⟨idx, hidx⟩ := by
      simp [List.getD_eq_getElem?_getD, List.getElem?_eq_getElem hidx]
    have hkin : rl ≤ key.getD idx 0 ∧ key.getD idx 0 ≤ rh := by
      rw [hgd]; exact hkey _ (List.get_mem key idx hidx)
    have hck0 : 0 ≤ key.getD idx 0 - rl := by omega
    have hck1 : key.getD idx 0 - rl < rh - rl + 1 := by omega
    have hnormck : normKey (key.getD idx 0 - rl) (rh - rl + 1) = key.getD idx 0 - rl := by
      rw [normKey_eq_emod _ hrs, Int.emod_eq_of_lt hck0 hck1]
    have hw : wrap32 (-(key.getD idx 0 - rl)) = -(key.getD idx 0 - rl) :=
      wrap32_eq_self (by omega) (by omega)
    have hsum : (key.getD idx 0 - rl + normKey (-(key.getD idx 0 - rl)) (rh - rl + 1))
        % (rh - rl + 1) = 0 := by
      rw [normKey_eq_emod _ hrs, Int.add_emod_emod]
      simp
    by_cases hc : rl ≤ c ∧ c ≤ rh
    · simp only [polySpec, if_pos hc, caesar_encrypt, Bool.false_eq_true, if_false,
        List.map_cons, List.map_nil, List.headD_cons]
      rw [hnormck]
      have hmem := caesarChar_mem hlo hhi hr hc hck0 hck1
      simp only [polySpec, if_pos hmem, if_true, caesar_decrypt, caesar_encrypt,
        List.map_cons, List.map_nil, List.headD_cons]
      rw [hw, caesarChar_inv hlo hhi hr hc hck0 hck1
        (normKey_nonneg _ hrs) (normKey_lt _ hrs) hsum]
      rw [ih ((idx + 1) % key.length) (Nat.mod_lt _ hkl)]
    · simp only [polySpec, if_neg hc]
      rw [ih idx hidx]

lemma dropWhile_eq_self_of_no_ws {s : List Int} (h : contains_whitespace s = false) :
    s.dropWhile isspaceC = s := by
  cases s with
  | nil => rfl
  | cons c t =>
    unfold contains_whitespace at h
    rw [List.any_cons, Bool.or_eq_false_iff] at h
    exact List.dropWhile_cons_of_neg (by simp [h.1])

lemma go10_all_digits : ∀ (s : List Int) (acc : Int),
    (∀ c ∈ s, isDigitC c = true) →
    go10 acc s = (s.foldl (fun a c => a * 10 + (c - 48)) acc, []) := by
  intro s
  induction s with
  | nil => intro acc _; rfl
  | cons c cs ih =>
    intro acc hall
    rw [go10, if_pos (hall c (List.mem_cons_self c cs)), List.foldl_cons]
    exact ih _ (fun x hx => hall x (List.mem_cons_of_mem c hx))

lemma go10_rest_nil : ∀ (s : List Int) (acc : Int),
    (go10 acc s).2 = [] → ∀ c ∈ s, isDigitC c = true := by
  intro s
  induction s with
  | nil => intro acc _ c hc; simp at hc
  | cons c cs ih =>
    intro acc hrest x hx
    by_cases hc : isDigitC c = true
    · rw [go10, if_pos hc] at hrest
      rcases List.mem_cons.mp hx with rfl | hx2
      · exact hc
      · exact ih _ hrest x hx2
    · rw [go10, if_neg hc] at hrest
      simp at hrest

lemma digit_not_ws {c : Int} (h : isDigitC c = true) : isspaceC c = false := by
  simp only [isDigitC, decide_eq_true_eq] at h
  simp only [isspaceC, decide_eq_false_iff_not]
  omega

lemma token_no_ws {s : List Int} (h : validIntToken s = true) :
    contains_whitespace s = false := by
  cases s with
  | nil => simp [validIntToken] at h
  | cons c t =>
    unfold validIntToken at h
    simp only [List.headD_cons] at h
    unfold contains_whitespace
    rw [List.any_cons, Bool.or_eq_false_iff]
    by_cases hsign : c = 45 ∨ c = 43
    · rw [if_pos hsign, Bool.and_eq_true, List.all_eq_true] at h
      constructor
      · rcases hsign with rfl | rfl <;> decide
      · rw [List.any_eq_false]
        intro x hx
        simp [digit_not_ws (h.2 x (by simpa using hx))]
    · rw [if_neg hsign, Bool.and_eq_true, List.all_eq_true] at h
      constructor
      · exact digit_not_ws (h.2 c (List.mem_cons_self c t))
      · rw [List.any_eq_false]
        intro x hx
        simp [digit_not_ws (h.2 x (List.mem_cons_of_mem c hx))]

lemma clampLong_eq_self {x : Int} (h1 : -9223372036854775808 ≤ x)
    (h2 : x ≤ 9223372036854775807) : clampLong x = x := by
  unfold clampLong
  rw [if_neg (by omega), if_neg (by omega)]

lemma clampLong_int_range {x : Int} :
    (-2147483648 ≤ clampLong x ∧ clampLong x ≤ 2147483647) ↔
      (-2147483648 ≤ x ∧ x ≤ 2147483647) := by
  unfold clampLong
  split_ifs <;> omega

lemma strtolDigits_all_digits (orig : List Int) (sign : Int) {t : List Int}
    (hne : t ≠ []) (hall : ∀ c ∈ t, isDigitC c = true) :
    strtolDigits orig sign t = (clampLong (sign * digitsVal t), []) := by
  cases t with
  | nil => exact absurd rfl hne
  | cons d ds =>
    rw [strtolDigits, if_pos (hall d (List.mem_cons_self d ds)),
      go10_all_digits (d :: ds) 0 hall]
    simp [digitsVal]

/-- Trichotomy used by the integer-key claims: on a whitespace-free
non-empty key, either the key is a valid sign-and-digits token and `strtol`
consumes it entirely, yielding the (clamped) token value, or it is not and
`strtol` leaves a non-empty unconsumed suffix. -/
lemma strtol10_spec (key : List Int) (hk : key ≠ [])
    (hw : contains_whitespace key = false) :
    (validIntToken key = true ∧ strtol10 key = (clampLong (specTokenVal key), []))
    ∨ (validIntToken key = false ∧ (strtol10 key).2 ≠ []) := by
  cases key with
  | nil => exact absurd rfl hk
  | cons c t =>
    have hbody : strtol10 (c :: t) = strtolBody (c :: t) (c :: t) := by
      rw [strtol10, dropWhile_eq_self_of_no_ws hw]
    by_cases h45 : c = 45
    · subst h45
      rw [hbody, show strtolBody (45 :: t) (45 :: t)
          = strtolDigits (45 :: t) (-1) t from by rw [strtolBody]; simp]
      have htok : validIntToken (45 :: t) = (!t.isEmpty && t.all isDigitC) := by
        simp [validIntToken]
      have hval : specTokenVal (45 :: t) = -(digitsVal t) := by
        simp [specTokenVal]
      cases t with
      | nil => right; refine ⟨by simp [htok], by rw [strtolDigits]; simp⟩
      | cons d ds =>
        by_cases hall : ∀ x ∈ d :: ds, isDigitC x = true
        · left
          refine ⟨by simp [htok, List.all_eq_true]
                     exact ⟨hall d (List.mem_cons_self d ds),
                       fun x hx => hall x (List.mem_cons_of_mem d hx)⟩, ?_⟩
          rw [strtolDigits_all_digits _ _ (by simp) hall, hval]
          norm_num
        · right
          constructor
          · rw [htok, Bool.and_eq_false_iff]
            right
            rw [Bool.eq_false_iff]
            intro hcon
            exact hall (List.all_eq_true.mp hcon)
          · by_cases hd : isDigitC d = true
            · rw [strtolDigits, if_pos hd]
              intro hcon
              exact hall (go10_rest_nil (d :: ds) 0 hcon)
            · rw [strtolDigits, if_neg hd]
              simp
    · by_cases h43 : c = 43
      · subst h43
        rw [hbody, show strtolBody (43 :: t) (43 :: t)
            = strtolDigits (43 :: t) 1 t from by rw [strtolBody]; simp]
        have htok : validIntToken (43 :: t) = (!t.isEmpty && t.all isDigitC) := by
          simp [validIntToken]
        have hval : specTokenVal (43 :: t) = digitsVal t := by
          simp [specTokenVal]
        cases t with
        | nil => right; refine ⟨by simp [htok], by rw [strtolDigits]; simp⟩
        | cons d ds =>
          by_cases hall : ∀ x ∈ d :: ds, isDigitC x = true
          · left
            refine ⟨by simp [htok, List.all_eq_true]
                       exact ⟨hall d (List.mem_cons_self d ds),
                         fun x hx => hall x (List.mem_cons_of_mem d hx)⟩, ?_⟩
            rw [strtolDigits_all_digits _ _ (by simp) hall, hval]
            norm_num
          · right
            constructor
            · rw [htok, Bool.and_eq_false_iff]
              right
              rw [Bool.eq_false_iff]
              intro hcon
              exact hall (List.all_eq_true.mp hcon)
            · by_cases hd : isDigitC d = true
              · rw [strtolDigits, if_pos hd]
                intro hcon
                exact hall (go10_rest_nil (d :: ds) 0 hcon)
              · rw [strtolDigits, if_neg hd]
                simp
      · have hsign : ¬((c :: t).headD 0 = 45 ∨ (c :: t).headD 0 = 43) := by
          simp only [List.headD_cons]
          rintro (h | h)
          · exact h45 h
          · exact h43 h
        have htok : validIntToken (c :: t)
            = (!(c :: t).isEmpty && (c :: t).all isDigitC) := by
          rw [validIntToken, if_neg hsign]
        have hval : specTokenVal (c :: t) = digitsVal (c :: t) := by
          rw [specTokenVal, if_neg (by simpa using fun h => h45 h),
            if_neg (by simpa using fun h => h43 h)]
        rw [hbody, show strtolBody (c :: t) (c :: t)
            = strtolDigits (c :: t) 1 (c :: t) from by
              rw [strtolBody, if_neg h45, if_neg h43]]
        by_cases hall : ∀ x ∈ c :: t, isDigitC x = true
        · left
          refine ⟨by simp [htok, List.all_eq_true]
                     exact ⟨hall c (List.mem_cons_self c t),
                       fun x hx => hall x (List.mem_cons_of_mem c hx)⟩, ?_⟩
          rw [strtolDigits_all_digits _ _ (by simp) hall, hval]
          norm_num
        · right
          constructor
          · rw [htok, Bool.and_eq_false_iff]
            right
            rw [Bool.eq_false_iff]
            intro hcon
            exact hall (List.all_eq_true.mp hcon)
          · by_cases hc : isDigitC c = true
            · rw [strtolDigits, if_pos hc]
              intro hcon
              exact hall (go10_rest_nil (c :: t) 0 hcon)
            · rw [strtolDigits, if_neg hc]
              simp

/-- C1: for every symbol range with `range_high > range_low`, every non-empty
keyword whose symbols all lie in the range, and every message (mixing
in-range and out-of-range symbols freely), `vigenere_decrypt` with the same
keyword applied to the output of `vigenere_encrypt` returns the original
message exactly. -/
theorem vigenere_roundtrip (rl rh : Int) (key m : List Int)
    (hr : rl < rh) (hlo : -128 ≤ rl) (hhi : rh ≤ 127)
    (hk : key ≠ []) (hkey : ∀ c ∈ key, rl ≤ c ∧ c ≤ rh) :
    (vigenere_encrypt rl rh key m).bind (vigenere_decrypt rl rh key) = some m := by
  rw [vigenere_encrypt_eq_polySpec rl rh key m hk]
  show vigenere_decrypt rl rh key (polySpec rl rh false key m 0) = some m
  rw [vigenere_decrypt_eq_polySpec rl rh key _ hk]
  rw [polySpec_roundtrip rl rh key hr hlo hhi hkey m 0 (List.length_pos.mpr hk)]

theorem vigenere_roundtrip_check :
    ((65 : Int) < 90 ∧ -128 ≤ (65 : Int) ∧ (90 : Int) ≤ 127 ∧
      ([75, 69, 89] : List Int) ≠ [] ∧
      ∀ c ∈ ([75, 69, 89] : List Int), (65 : Int) ≤ c ∧ c ≤ 90) ∧
    (vigenere_encrypt 65 90 [75, 69, 89] [72, 69, 33, 76, 76, 79]).bind
      (vigenere_decrypt 65 90 [75, 69, 89]) = some [72, 69, 33, 76, 76, 79] :=
  ⟨⟨by decide, by decide, by decide, by decide, by decide⟩,
   vigenere_roundtrip 65 90 [75, 69, 89] [72, 69, 33, 76, 76, 79]
     (by decide) (by decide) (by decide) (by decide) (by decide)⟩

/-- C2 as stated is false: at `key = INT_MIN` the negation `-key` inside
`caesar_decrypt` wraps back to INT_MIN, so decryption shifts forward by the
same normalized amount (2) instead of backward, and the round trip fails on
the message "A" (and under `-fsanitize=undefined` the negation aborts). -/
theorem caesar_roundtrip_intmin_counterexample :
    caesar_decrypt 65 90 (-2147483648)
      (caesar_encrypt 65 90 (-2147483648) [65]) ≠ [65] := by
  decide

/-- C2 amended: for every symbol range with `range_high > range_low` and
every `int` key except INT_MIN (i.e. every key whose negation is also
representable), `caesar_decrypt` with the same key applied to the output of
`caesar_encrypt` returns the original message exactly. -/
theorem caesar_roundtrip (rl rh key : Int) (pt : List Int)
    (hr : rl < rh) (hlo : -128 ≤ rl) (hhi : rh ≤ 127)
    (hk1 : -2147483648 < key) (hk2 : key ≤ 2147483647) :
    caesar_decrypt rl rh key (caesar_encrypt rl rh key pt) = pt := by
  have hrs : (0 : Int) < rh - rl + 1 := by omega
  have hw : wrap32 (-key) = -key := wrap32_eq_self (by omega) (by omega)
  have hsum : (normKey key (rh - rl + 1) + normKey (-key) (rh - rl + 1))
      % (rh - rl + 1) = 0 := by
    rw [normKey_eq_emod _ hrs, normKey_eq_emod _ hrs, ← Int.add_emod]
    simp
  have hchar : ∀ c : Int,
      caesarChar rl rh (normKey (-key) (rh - rl + 1))
        (caesarChar rl rh (normKey key (rh - rl + 1)) c) = c := by
    intro c
    by_cases hc : rl ≤ c ∧ c ≤ rh
    · exact caesarChar_inv hlo hhi hr hc (normKey_nonneg _ hrs) (normKey_lt _ hrs)
        (normKey_nonneg _ hrs) (normKey_lt _ hrs) hsum
    · rw [caesarChar_out hc, caesarChar_out hc]
  unfold caesar_decrypt caesar_encrypt
  rw [hw, List.map_map]
  induction pt with
  | nil => rfl
  | cons c cs ih => simp only [List.map_cons, Function.comp_apply, hchar, ih]

theorem caesar_roundtrip_check :
    ((65 : Int) < 90 ∧ -128 ≤ (65 : Int) ∧ (90 : Int) ≤ 127 ∧
      -2147483648 < (-3 : Int) ∧ (-3 : Int) ≤ 2147483647) ∧
    caesar_decrypt 65 90 (-3) (caesar_encrypt 65 90 (-3) [72, 69, 33, 76]) =
      [72, 69, 33, 76] :=
  ⟨⟨by decide, by decide, by decide, by decide, by decide⟩,
   caesar_roundtrip 65 90 (-3) [72, 69, 33, 76]
     (by decide) (by decide) (by decide) (by decide) (by decide)⟩

/-- C3: `caesar_encrypt` writes at each position exactly the spec formula:
an in-range symbol `c` becomes
`range_low + ((c - range_low + normalized_key) mod range_size)` with
`normalized_key = ((key mod range_size) + range_size) mod range_size`
(mathematical, non-negative `mod`), and any other symbol is unchanged. -/
theorem caesar_encrypt_formula (rl rh key : Int) (pt : List Int)
    (hr : rl < rh) (hlo : -128 ≤ rl) (hhi : rh ≤ 127) :
    caesar_encrypt rl rh key pt
      = pt.map (fun c =>
          if rl ≤ c ∧ c ≤ rh then
            rl + (c - rl +
              ((key % (rh - rl + 1) + (rh - rl + 1)) % (rh - rl + 1))) % (rh - rl + 1)
          else c) := by
  have hrs : (0 : Int) < rh - rl + 1 := by omega
  unfold caesar_encrypt
  congr 1
  funext c
  by_cases hc : rl ≤ c ∧ c ≤ rh
  · rw [caesarChar_in hlo hhi hc (normKey_nonneg _ hrs) (normKey_lt _ hrs),
      if_pos hc, normKey_eq_emod _ hrs, Int.add_emod_self,
      Int.emod_emod_of_dvd key dvd_rfl]
  · rw [caesarChar_out hc, if_neg hc]

theorem caesar_encrypt_formula_check :
    ((65 : Int) < 90 ∧ -128 ≤ (65 : Int) ∧ (90 : Int) ≤ 127) ∧
    caesar_encrypt 65 90 3 [72, 69, 76, 76, 79, 87, 79, 82, 76, 68] =
      [75, 72, 79, 79, 82, 90, 82, 85, 79, 71] :=
  ⟨⟨by decide, by decide, by decide⟩, by
    rw [caesar_encrypt_formula 65 90 3 [72, 69, 76, 76, 79, 87, 79, 82, 76, 68]
      (by decide) (by decide) (by decide)]
    decide⟩

/-- C4: the final buffer produced by the suffix-rewriting loops of
`vigenere_encrypt` and `vigenere_decrypt` equals the spec's per-character
algorithm (`polySpec`) at every position: each in-range symbol is
shift-transformed by the offset of the current keyword character alone, and
the transient overwrites of later positions do not survive. -/
theorem vigenere_matches_per_char_spec (rl rh : Int) (key pt : List Int)
    (hr : rl < rh) (hk : key ≠ []) (hkey : ∀ c ∈ key, rl ≤ c ∧ c ≤ rh) :
    vigenere_encrypt rl rh key pt = some (polySpec rl rh false key pt 0) ∧
    vigenere_decrypt rl rh key pt = some (polySpec rl rh true key pt 0) :=
  ⟨vigenere_encrypt_eq_polySpec rl rh key pt hk,
   vigenere_decrypt_eq_polySpec rl rh key pt hk⟩

theorem vigenere_matches_per_char_spec_check :
    ((65 : Int) < 90 ∧ ([75, 69, 89] : List Int) ≠ [] ∧
      ∀ c ∈ ([75, 69, 89] : List Int), (65 : Int) ≤ c ∧ c ≤ 90) ∧
    vigenere_encrypt 65 90 [75, 69, 89] [72, 69, 33, 76, 76, 79]
      = some (polySpec 65 90 false [75, 69, 89] [72, 69, 33, 76, 76, 79] 0) ∧
    vigenere_decrypt 65 90 [75, 69, 89] [72, 69, 33, 76, 76, 79]
      = some (polySpec 65 90 true [75, 69, 89] [72, 69, 33, 76, 76, 79] 0) :=
  ⟨⟨by decide, by decide, by decide⟩,
   (vigenere_matches_per_char_spec 65 90 [75, 69, 89] [72, 69, 33, 76, 76, 79]
     (by decide) (by decide) (by decide)).1,
   (vigenere_matches_per_char_spec 65 90 [75, 69, 89] [72, 69, 33, 76, 76, 79]
     (by decide) (by decide) (by decide)).2⟩

/-- C5: a message symbol outside `[range_low, range_high]` appears unchanged
at the same position in the output of all four transforms, and in the
Vigenère transforms (whose output is the per-character `polySpec`) such a
symbol never advances the keyword's cyclic index. -/
theorem out_of_range_pass_through (rl rh ikey : Int) (key pt : List Int) (i : Nat)
    (hr : rl < rh) (hk : key ≠ []) (hkey : ∀ c ∈ key, rl ≤ c ∧ c ≤ rh)
    (hi : i < pt.length) (hout : ¬(rl ≤ pt.getD i 0 ∧ pt.getD i 0 ≤ rh)) :
    (caesar_encrypt rl rh ikey pt).getD i 0 = pt.getD i 0 ∧
    (caesar_decrypt rl rh ikey pt).getD i 0 = pt.getD i 0 ∧
    (∃ ct, vigenere_encrypt rl rh key pt = some ct ∧ ct.getD i 0 = pt.getD i 0) ∧
    (∃ dt, vigenere_decrypt rl rh key pt = some dt ∧ dt.getD i 0 = pt.getD i 0) ∧
    (∀ (dec : Bool) (idx : Nat) (c : Int) (cs : List Int), ¬(rl ≤ c ∧ c ≤ rh) →
      polySpec rl rh dec key (c :: cs) idx = c :: polySpec rl rh dec key cs idx) := by
  refine ⟨?_, ?_, ?_, ?_, ?_⟩
  · unfold caesar_encrypt
    rw [getD_map_of_lt _ _ _ hi, caesarChar_out hout]
  · unfold caesar_decrypt caesar_encrypt
    rw [getD_map_of_lt _ _ _ hi, caesarChar_out hout]
  · exact ⟨polySpec rl rh false key pt 0, vigenere_encrypt_eq_polySpec rl rh key pt hk,
      polySpec_getD_out rl rh false key pt 0 i hi hout⟩
  · exact ⟨polySpec rl rh true key pt 0, vigenere_decrypt_eq_polySpec rl rh key pt hk,
      polySpec_getD_out rl rh true key pt 0 i hi hout⟩
  · intro dec idx c cs hc
    simp [polySpec, hc]

theorem out_of_range_pass_through_check :
    ((65 : Int) < 90 ∧ ([75, 69, 89] : List Int) ≠ [] ∧
      (∀ c ∈ ([75, 69, 89] : List Int), (65 : Int) ≤ c ∧ c ≤ 90) ∧
      1 < ([72, 33, 76] : List Int).length ∧
      ¬((65 : Int) ≤ ([72, 33, 76] : List Int).getD 1 0 ∧
        ([72, 33, 76] : List Int).getD 1 0 ≤ 90)) ∧
    (caesar_encrypt 65 90 3 [72, 33, 76]).getD 1 0 = 33 ∧
    (∃ ct, vigenere_encrypt 65 90 [75, 69, 89] [72, 33, 76] = some ct ∧
      ct.getD 1 0 = 33) :=
  ⟨⟨by decide, by decide, by decide, by decide, by decide⟩,
   (out_of_range_pass_through 65 90 3 [75, 69, 89] [72, 33, 76] 1
     (by decide) (by decide) (by decide) (by decide) (by decide)).1,
   (out_of_range_pass_through 65 90 3 [75, 69, 89] [72, 33, 76] 1
     (by decide) (by decide) (by decide) (by decide) (by decide)).2.2.1⟩

/-- C8: under the preconditions (valid range, non-empty in-range keyword)
both Vigenère transforms are total on every message: the modelled division
by zero in `(index + 1) % key_length` (the `none` branch of `vigenere_go`)
is never reached, so a result is always produced. -/
theorem vigenere_total_no_div_by_zero (rl rh : Int) (key pt ct : List Int)
    (hr : rl < rh) (hk : key ≠ []) (hkey : ∀ c ∈ key, rl ≤ c ∧ c ≤ rh) :
    (vigenere_encrypt rl rh key pt).isSome ∧ (vigenere_decrypt rl rh key ct).isSome := by
  rw [vigenere_encrypt_eq_polySpec rl rh key pt hk,
    vigenere_decrypt_eq_polySpec rl rh key ct hk]
  exact ⟨rfl, rfl⟩

theorem vigenere_total_no_div_by_zero_check :
    ((65 : Int) < 90 ∧ ([75, 69, 89] : List Int) ≠ [] ∧
      ∀ c ∈ ([75, 69, 89] : List Int), (65 : Int) ≤ c ∧ c ≤ 90) ∧
    (vigenere_encrypt 65 90 [75, 69, 89] [72, 69, 76, 76, 79]).isSome ∧
    (vigenere_decrypt 65 90 [75, 69, 89] [82, 73, 74, 86, 83]).isSome :=
  ⟨⟨by decide, by decide, by decide⟩,
   vigenere_total_no_div_by_zero 65 90 [75, 69, 89] [72, 69, 76, 76, 79]
     [82, 73, 74, 86, 83] (by decide) (by decide) (by decide)⟩

/-- C9: adding any multiple of the range size to the key leaves the output
of `caesar_encrypt` unchanged, for every key and multiplier representable
in the `int` parameter. -/
theorem caesar_key_normalization_idempotent (rl rh key n : Int) (pt : List Int)
    (hr : rl < rh)
    (hk1 : -2147483648 ≤ key) (hk2 : key ≤ 2147483647)
    (hn1 : -2147483648 ≤ key + n * (rh - rl + 1))
    (hn2 : key + n * (rh - rl + 1) ≤ 2147483647) :
    caesar_encrypt rl rh (key + n * (rh - rl + 1)) pt = caesar_encrypt rl rh key pt := by
  have hrs : (0 : Int) < rh - rl + 1 := by omega
  unfold caesar_encrypt
  rw [normKey_eq_emod _ hrs, normKey_eq_emod _ hrs, Int.add_mul_emod_self]

theorem caesar_key_normalization_idempotent_check :
    ((65 : Int) < 90 ∧ -2147483648 ≤ (3 : Int) ∧ (3 : Int) ≤ 2147483647 ∧
      -2147483648 ≤ (3 : Int) + (-5) * (90 - 65 + 1) ∧
      (3 : Int) + (-5) * (90 - 65 + 1) ≤ 2147483647) ∧
    caesar_encrypt 65 90 (3 + (-5) * (90 - 65 + 1)) [72, 69, 76, 76, 79]
      = caesar_encrypt 65 90 3 [72, 69, 76, 76, 79] :=
  ⟨⟨by decide, by decide, by decide, by decide, by decide⟩,
   caesar_key_normalization_idempotent 65 90 3 (-5) [72, 69, 76, 76, 79]
     (by decide) (by decide) (by decide) (by decide) (by decide)⟩

/-- C10: an output symbol at a position whose input symbol lies in
`[range_low, range_high]` itself lies in the range, for `caesar_encrypt`,
`caesar_decrypt` and (with a valid keyword) both Vigenère transforms: the
transforms never turn an in-range symbol into an out-of-range one. -/
theorem in_range_closure (rl rh ikey : Int) (key pt : List Int) (i : Nat)
    (hr : rl < rh) (hlo : -128 ≤ rl) (hhi : rh ≤ 127)
    (hk : key ≠ []) (hkey : ∀ c ∈ key, rl ≤ c ∧ c ≤ rh)
    (hi : i < pt.length) (hin : rl ≤ pt.getD i 0 ∧ pt.getD i 0 ≤ rh) :
    (rl ≤ (caesar_encrypt rl rh ikey pt).getD i 0 ∧
      (caesar_encrypt rl rh ikey pt).getD i 0 ≤ rh) ∧
    (rl ≤ (caesar_decrypt rl rh ikey pt).getD i 0 ∧
      (caesar_decrypt rl rh ikey pt).getD i 0 ≤ rh) ∧
    (∃ ct, vigenere_encrypt rl rh key pt = some ct ∧
      rl ≤ ct.getD i 0 ∧ ct.getD i 0 ≤ rh) ∧
    (∃ dt, vigenere_decrypt rl rh key pt = some dt ∧
      rl ≤ dt.getD i 0 ∧ dt.getD i 0 ≤ rh) := by
  have hrs : (0 : Int) < rh - rl + 1 := by omega
  refine ⟨?_, ?_, ?_, ?_⟩
  · unfold caesar_encrypt
    rw [getD_map_of_lt _ _ _ hi]
    exact caesarChar_mem hlo hhi hr hin (normKey_nonneg _ hrs) (normKey_lt _ hrs)
  · unfold caesar_decrypt caesar_encrypt
    rw [getD_map_of_lt _ _ _ hi]
    exact caesarChar_mem hlo hhi hr hin (normKey_nonneg _ hrs) (normKey_lt _ hrs)
  · exact ⟨polySpec rl rh false key pt 0, vigenere_encrypt_eq_polySpec rl rh key pt hk,
      polySpec_getD_mem rl rh false key hr hlo hhi pt 0 i hi hin⟩
  · exact ⟨polySpec rl rh true key pt 0, vigenere_decrypt_eq_polySpec rl rh key pt hk,
      polySpec_getD_mem rl rh true key hr hlo hhi pt 0 i hi hin⟩

theorem in_range_closure_check :
    ((65 : Int) < 90 ∧ -128 ≤ (65 : Int) ∧ (90 : Int) ≤ 127 ∧
      ([75, 69, 89] : List Int) ≠ [] ∧
      (∀ c ∈ ([75, 69, 89] : List Int), (65 : Int) ≤ c ∧ c ≤ 90) ∧
      0 < ([90, 33] : List Int).length ∧
      ((65 : Int) ≤ ([90, 33] : List Int).getD 0 0 ∧
        ([90, 33] : List Int).getD 0 0 ≤ 90)) ∧
    (65 ≤ (caesar_encrypt 65 90 7 [90, 33]).getD 0 0 ∧
      (caesar_encrypt 65 90 7 [90, 33]).getD 0 0 ≤ 90) ∧
    (∃ ct, vigenere_encrypt 65 90 [75, 69, 89] [90, 33] = some ct ∧
      65 ≤ ct.getD 0 0 ∧ ct.getD 0 0 ≤ 90) :=
  ⟨⟨by decide, by decide, by decide, by decide, by decide, by decide, by decide⟩,
   (in_range_closure 65 90 7 [75, 69, 89] [90, 33] 0 (by decide) (by decide)
     (by decide) (by decide) (by decide) (by decide) (by decide)).1,
   (in_range_closure 65 90 7 [75, 69, 89] [90, 33] 0 (by decide) (by decide)
     (by decide) (by decide) (by decide) (by decide) (by decide)).2.2.1⟩

/-- C6: on the Vigenère paths the CLI rejects — exit status 1 with a
diagnostic, without invoking any transform — exactly the keywords that are
empty (caught by the empty-key check of `cli`) or contain a symbol outside
['A', 'Z'] (caught by `validate_key_characters` in `handle_vigenere`); an
accepted keyword is handed to the transform verbatim, with no case-folding
or normalization. -/
theorem keyword_validation_cli (op : Op) (key msg : List Int)
    (hop : op = Op.vigenereEncrypt ∨ op = Op.vigenereDecrypt)
    (hm : msg ≠ []) (hlen : msg.length < 1024) :
    ((key = [] ∨ ∃ c ∈ key, ¬(65 ≤ c ∧ c ≤ 90)) →
      cli (some op) key msg = CliOut.err) ∧
    (key ≠ [] → (∀ c ∈ key, 65 ≤ c ∧ c ≤ 90) →
      ∃ out, cli (some op) key msg = CliOut.ok out ∧
        (if op = Op.vigenereEncrypt then vigenere_encrypt 65 90 key msg = some out
         else vigenere_decrypt 65 90 key msg = some out)) := by
  have hc2 : ¬(1024 ≤ msg.length) := by omega
  constructor
  · rintro (rfl | ⟨c, hcmem, hcout⟩)
    · simp [cli]
    · have hk : key ≠ [] := fun h => by subst h; simp at hcmem
      have hc1 : ¬(key = [] ∨ msg = []) := by
        rintro (h | h)
        · exact hk h
        · exact hm h
      have hval : validate_key_characters key = false := by
        rw [validate_key_characters, List.all_eq_false]
        exact ⟨c, hcmem, by simpa using hcout⟩
      rcases hop with rfl | rfl <;>
        simp [cli, hc1, hc2, handle_vigenere, hval]
  · intro hk hin
    have hc1 : ¬(key = [] ∨ msg = []) := by
      rintro (h | h)
      · exact hk h
      · exact hm h
    have hval : validate_key_characters key = true := by
      rw [validate_key_characters, List.all_eq_true]
      intro x hx
      simpa using hin x hx
    rcases hop with rfl | rfl
    · refine ⟨polySpec 65 90 false key msg 0, ?_, ?_⟩
      · simp [cli, hc1, hc2, handle_vigenere, hval,
          vigenere_encrypt_eq_polySpec 65 90 key msg hk]
      · simpa using vigenere_encrypt_eq_polySpec 65 90 key msg hk
    · refine ⟨polySpec 65 90 true key msg 0, ?_, ?_⟩
      · simp [cli, hc1, hc2, handle_vigenere, hval,
          vigenere_decrypt_eq_polySpec 65 90 key msg hk]
      · simpa using vigenere_decrypt_eq_polySpec 65 90 key msg hk

theorem keyword_validation_cli_check :
    ((Op.vigenereEncrypt = Op.vigenereEncrypt ∨
        Op.vigenereEncrypt = Op.vigenereDecrypt) ∧
      ([72, 69, 76, 76, 79] : List Int) ≠ [] ∧
      ([72, 69, 76, 76, 79] : List Int).length < 1024) ∧
    cli (some Op.vigenereEncrypt) [107] [72, 69, 76, 76, 79] = CliOut.err ∧
    (∃ out, cli (some Op.vigenereEncrypt) [75, 69, 89] [72, 69, 76, 76, 79]
        = CliOut.ok out ∧
      (if Op.vigenereEncrypt = Op.vigenereEncrypt then
        vigenere_encrypt 65 90 [75, 69, 89] [72, 69, 76, 76, 79] = some out
       else vigenere_decrypt 65 90 [75, 69, 89] [72, 69, 76, 76, 79] = some out)) :=
  ⟨⟨Or.inl rfl, by decide, by decide⟩,
   (keyword_validation_cli Op.vigenereEncrypt [107] [72, 69, 76, 76, 79]
      (Or.inl rfl) (by decide) (by decide)).1
     (Or.inr ⟨107, by decide, by decide⟩),
   (keyword_validation_cli Op.vigenereEncrypt [75, 69, 89] [72, 69, 76, 76, 79]
      (Or.inl rfl) (by decide) (by decide)).2 (by decide) (by decide)⟩

/-- C7: on the Caesar paths the CLI rejects — exit status 1 with a
diagnostic, invoking no transform — exactly the key strings that are not a
sign-plus-digits decimal token or whose value lies outside the `int` range;
an accepted key is reduced modulo the range size with non-negative
normalization (so "-3" becomes 23 for range size 26) before reaching the
Shift Transform. -/
theorem integer_key_validation_cli (op : Op) (key msg : List Int)
    (hop : op = Op.caesarEncrypt ∨ op = Op.caesarDecrypt)
    (hk : key ≠ []) (hm : msg ≠ []) (hlen : msg.length < 1024) :
    (cli (some op) key msg ≠ CliOut.err ↔
      (validIntToken key = true ∧
        -2147483648 ≤ specTokenVal key ∧ specTokenVal key ≤ 2147483647)) ∧
    ((validIntToken key = true ∧
        -2147483648 ≤ specTokenVal key ∧ specTokenVal key ≤ 2147483647) →
      cli (some op) key msg = CliOut.ok
        (if op = Op.caesarEncrypt then
          caesar_encrypt 65 90 (specTokenVal key % 26) msg
         else caesar_decrypt 65 90 (specTokenVal key % 26) msg)) := by
  have hc1 : ¬(key = [] ∨ msg = []) := by
    rintro (h | h)
    · exact hk h
    · exact hm h
  have hc2 : ¬(1024 ≤ msg.length) := by omega
  have hcli : cli (some op) key msg = handle_caesar op key msg := by
    rcases hop with rfl | rfl <;> simp [cli, hc1, hc2]
  have haccept : (validIntToken key = true ∧
      -2147483648 ≤ specTokenVal key ∧ specTokenVal key ≤ 2147483647) →
      cli (some op) key msg = CliOut.ok
        (if op = Op.caesarEncrypt then
          caesar_encrypt 65 90 (specTokenVal key % 26) msg
         else caesar_decrypt 65 90 (specTokenVal key % 26) msg) := by
    rintro ⟨htok, hr1, hr2⟩
    have hw := token_no_ws htok
    rcases strtol10_spec key hk hw with ⟨_, heq⟩ | ⟨hf, _⟩
    · have hclamp : clampLong (specTokenVal key) = specTokenVal key :=
        clampLong_eq_self (by omega) (by omega)
      rw [hcli]
      unfold handle_caesar
      rw [heq]
      have hcond : ¬((clampLong (specTokenVal key), ([] : List Int)).2 ≠ [] ∨
          contains_whitespace key = true ∨
          (clampLong (specTokenVal key), ([] : List Int)).1 < -2147483648 ∨
          2147483647 < (clampLong (specTokenVal key), ([] : List Int)).1) := by
        simp only [Prod.fst, Prod.snd, hclamp, hw]
        rintro (h | h | h | h)
        · exact h rfl
        · exact Bool.false_ne_true h
        · omega
        · omega
      rw [if_neg hcond]
      simp only [Prod.fst, hclamp, normKey_eq_emod _ (by norm_num : (0 : Int) < 26)]
    · rw [hf] at htok
      exact absurd htok (by simp)
  refine ⟨⟨?_, fun h => by rw [haccept h]; exact fun hcon => CliOut.noConfusion hcon⟩,
    haccept⟩
  intro hne
  rw [hcli] at hne
  unfold handle_caesar at hne
  by_cases hrej : (strtol10 key).2 ≠ [] ∨ contains_whitespace key = true ∨
      (strtol10 key).1 < -2147483648 ∨ 2147483647 < (strtol10 key).1
  · rw [if_pos hrej] at hne
    exact absurd rfl hne
  · push_neg at hrej
    obtain ⟨hrest, hws, hlow, hhigh⟩ := hrej
    have hw : contains_whitespace key = false := by
      cases hb : contains_whitespace key
      · rfl
      · exact absurd hb hws
    rcases strtol10_spec key hk hw with ⟨htok, heq⟩ | ⟨_, hbad⟩
    · refine ⟨htok, ?_⟩
      rw [heq] at hlow hhigh
      simp only [Prod.fst] at hlow hhigh
      exact clampLong_int_range.mp ⟨by omega, by omega⟩
    · exact absurd hrest hbad

theorem integer_key_validation_cli_check :
    ((Op.caesarEncrypt = Op.caesarEncrypt ∨ Op.caesarEncrypt = Op.caesarDecrypt) ∧
      ([45, 51] : List Int) ≠ [] ∧ ([65] : List Int) ≠ [] ∧
      ([65] : List Int).length < 1024 ∧
      (validIntToken [45, 51] = true ∧
        -2147483648 ≤ specTokenVal [45, 51] ∧ specTokenVal [45, 51] ≤ 2147483647) ∧
      specTokenVal [45, 51] % 26 = 23) ∧
    cli (some Op.caesarEncrypt) [45, 51] [65] =
      CliOut.ok (caesar_encrypt 65 90 23 [65]) ∧
    cli (some Op.caesarEncrypt) [49, 50, 97] [65] = CliOut.err ∧
    cli (some Op.caesarEncrypt) [32, 53] [65] = CliOut.err :=
  ⟨⟨Or.inl rfl, by decide, by decide, by decide, ⟨by decide, by decide, by decide⟩,
      by decide⟩,
   ((integer_key_validation_cli Op.caesarEncrypt [45, 51] [65] (Or.inl rfl)
      (by decide) (by decide) (by decide)).2
        ⟨by decide, by decide, by decide⟩).trans (by decide),
   not_not.mp (fun hne =>
     absurd ((integer_key_validation_cli Op.caesarEncrypt [49, 50, 97] [65]
       (Or.inl rfl) (by decide) (by decide) (by decide)).1.mp hne) (by decide)),
   not_not.mp (fun hne =>
     absurd ((integer_key_validation_cli Op.caesarEncrypt [32, 53] [65]
       (Or.inl rfl) (by decide) (by decide) (by decide)).1.mp hne) (by decide))⟩

end Safecipher
